import Mathlib

/-!
Verification of the Go AST-analyzer engine of `vscode-go-interface`
(`ast-analyzer/main.go`) against its natural-language specification.

The Go program is shallowly embedded: each Go function of the analyzer
becomes a Lean function over an explicit model of parsed Go files and of
the scanned directory tree.  Go maps are modelled as insertion-ordered
association lists; wherever the Go code *ranges over* a map (whose
iteration order Go leaves unspecified) the model takes the iteration
order as an explicit argument, constrained in theorems to be a
permutation of the map's keys.  `filepath.Walk` is modelled by a
depth-first traversal of an `FsTree`; the children of a directory are
listed in the lexical order in which both `filepath.Walk` and
`filepath.Glob` enumerate them.  Parser positions are one-based, as
`go/token` reports them; coordinates are `Int`, matching Go's `int`
arithmetic on them.
-/

/-! ### Character-list string helpers (executable models of `strings.*`) -/

/-- Model of `strings.HasPrefix` on explicit character lists. -/
def chStarts : List Char → List Char → Bool
  | _, [] => true
  | [], _ :: _ => false
  | c :: cs, d :: ds => (c = d) && chStarts cs ds

/-- Model of `strings.HasPrefix`. -/
def strStarts (s p : String) : Bool := chStarts s.data p.data

/-- Model of `strings.HasSuffix`: suffix test via reversed prefix test. -/
def strEnds (s suf : String) : Bool := chStarts s.data.reverse suf.data.reverse

/-- Substring containment on character lists. -/
def chHasSub : List Char → List Char → Bool
  | s, sub =>
    if chStarts s sub then true
    else match s with
      | [] => false
      | _ :: rest => chHasSub rest sub

/-- Model of `strings.Contains`. -/
def strHasSub (s sub : String) : Bool := chHasSub s.data sub.data

/-- Boolean string-list membership, the semantics of a lookup in a
`map[string]bool` set as built by `isExactMatch`. -/
def smem (x : String) : List String → Bool
  | [] => false
  | y :: ys => (y = x) || smem x ys

/-- Concatenation of the lists produced for each element (the shape of the
`for … range … append` loops of the Go code). -/
def lbind {α β : Type} : List α → (α → List β) → List β
  | [], _ => []
  | a :: as, f => f a ++ lbind as f

/-! ### Locations and result records (`main.go` lines 14–44) -/

/-- A one-based position as reported by `go/token.FileSet.Position`. -/
structure Position where
  line : Int
  column : Int
deriving DecidableEq, Repr

/-- `Location` struct: `{file, line, column}` as emitted in the JSON result. -/
structure Location where
  file : String
  line : Int
  column : Int
deriving DecidableEq, Repr

/-- `InterfaceMethod` result record. -/
structure InterfaceMethod where
  name : String
  interfaceName : String
  location : Location
  endLocation : Location
deriving DecidableEq, Repr

/-- `Implementation` result record. -/
structure Implementation where
  methodName : String
  receiverType : String
  location : Location
  endLocation : Location
deriving DecidableEq, Repr

/-- `InterfaceInfo` record of `main.go` (name plus method-name list). -/
structure InterfaceInfo where
  name : String
  methods : List String
deriving DecidableEq, Repr

/-- `MethodInfo` record of `main.go` (the `FuncDecl` pointer field is not
consulted by any query and is omitted). -/
structure MethodInfo where
  location : Location
  endLocation : Location
deriving DecidableEq, Repr

/-- `PackageAnalysisResult` record of `analyze-package-interfaces`. -/
structure PackageAnalysisResult where
  interfaceImplementations : List (String × List String)
  methodToInterface : List (String × String)
deriving DecidableEq, Repr

/-! ### Go AST fragments relevant to the analyzer -/

/-- One entry of an interface body's field list: its explicit names
(`method.Names`, empty for an embedded-interface entry) and the entry's
start position (`method.Pos()`). -/
structure IfaceField where
  names : List String
  pos : Position
deriving DecidableEq, Repr

/-- The type expression of a receiver field, as far as `getReceiverType`
inspects it: `*ast.Ident`, `*ast.StarExpr` (with its operand), or any
other shape. -/
inductive RecvExpr where
  | ident (name : String)
  | star (inner : RecvExpr)
  | other
deriving DecidableEq, Repr

/-- An `*ast.TypeSpec`: its name, whether its underlying type is an
`*ast.InterfaceType`, and (if so) the interface body's field list. -/
structure TypeSpec where
  name : String
  isInterface : Bool
  methods : List IfaceField
deriving DecidableEq, Repr

/-- An `*ast.FuncDecl`: name, receiver field list (`none` when `Recv` is
nil; each element is one field's type expression), and the declaration's
start / end positions. -/
structure FuncDecl where
  name : String
  recv : Option (List RecvExpr)
  pos : Position
  endPos : Position
deriving DecidableEq, Repr

/-- A parsed Go file.  `ast.Inspect` visits nodes in source order; each
pass of the analyzer inspects only one node kind, so type specs and
function declarations are kept as two source-ordered lists. -/
structure GoAst where
  types : List TypeSpec
  funcs : List FuncDecl
deriving DecidableEq, Repr

/-! ### Go maps as insertion-ordered association lists -/

/-- Lookup (`m[k]`, presence form). -/
def alGet {α : Type} : List (String × α) → String → Option α
  | [], _ => none
  | (k', v) :: rest, k => if k' = k then some v else alGet rest k

/-- Assignment `m[k] = v` (overwrite; new keys appended at the end). -/
def alSet {α : Type} : List (String × α) → String → α → List (String × α)
  | [], k, v => [(k, v)]
  | (k', v') :: rest, k, v =>
    if k' = k then (k', v) :: rest else (k', v') :: alSet rest k v

/-- `m[k] = append(m[k], x)`. -/
def alPush {α : Type} : List (String × List α) → String → α → List (String × List α)
  | [], k, x => [(k, [x])]
  | (k', xs) :: rest, k, x =>
    if k' = k then (k', xs ++ [x]) :: rest else (k', xs) :: alPush rest k x

/-! ### `getReceiverType` (`main.go` lines 774–789) and `isExactMatch`
(lines 414–429) -/

/-- `getReceiverType`: a direct named receiver yields the identifier, a
pointer-to-named-type receiver yields `*` + identifier, every other
shape (nil/empty field list, pointer to a non-identifier, index
expressions, …) yields the empty string. -/
def getReceiverType : Option (List RecvExpr) → String
  | none => ""
  | some [] => ""
  | some (t :: _) =>
    match t with
    | RecvExpr.ident n => n
    | RecvExpr.star (RecvExpr.ident n) => "*" ++ n
    | _ => ""

/-- `isExactMatch` (the subset policy): build the set of the type's
method names, then require every interface method name to be in it. -/
def isExactMatch (typeMethods interfaceMethods : List String) : Bool :=
  let typeMethodSet := typeMethods
  interfaceMethods.all fun interfaceMethod => smem interfaceMethod typeMethodSet

/-! ### Per-file extraction passes -/

/-- `findFileInterfaces` (`main.go` lines 158–214): one result entry per
explicitly named interface-body entry, with a zero-based start location
and an end location on the line after the declaration, column zero. -/
def findFileInterfaces (filePath : String) (parsed : Option GoAst) :
    List InterfaceMethod :=
  if ¬ strEnds filePath ".go" then [] else
  match parsed with
  | none => []
  | some f =>
    lbind f.types fun node =>
      if node.isInterface then
        lbind node.methods fun method =>
          match method.names with
          | [] => []
          | methodName :: _ =>
            [{ name := methodName,
               interfaceName := node.name,
               location := { file := filePath,
                             line := method.pos.line - 1,
                             column := method.pos.column - 1 },
               endLocation := { file := filePath,
                                line := method.pos.line,
                                column := 0 } }]
      else []

/-- The interface-declaration pass of `findAllInterfacesInDirectory`
(`main.go` lines 343–359 and 389–405): per interface, the list of its
explicitly named methods, kept only when nonempty. -/
def interfaceMethodLists (f : GoAst) : List (List String) :=
  lbind f.types fun node =>
    if node.isInterface then
      let methods := lbind node.methods fun method =>
        match method.names with
        | [] => []
        | n :: _ => [n]
      if methods.length > 0 then [methods] else []
    else []

/-- The interface pass of `findAllInterfacesWithMethods` (`main.go`
lines 516–534): every interface is kept, with possibly empty method
list. -/
def fileInterfaceInfos (f : GoAst) : List InterfaceInfo :=
  lbind f.types fun node =>
    if node.isInterface then
      [{ name := node.name,
         methods := lbind node.methods fun method =>
           match method.names with
           | [] => []
           | n :: _ => [n] }]
    else []

/-- The per-file pass of `findInterfaces` (`main.go` lines 738–762):
interface-body entries whose first name equals the requested method
name, with zero-based start location and a zero-valued end location. -/
def fileInterfaceMatches (methodName p : String) (f : GoAst) :
    List InterfaceMethod :=
  lbind f.types fun node =>
    if node.isInterface then
      lbind node.methods fun method =>
        match method.names with
        | [] => []
        | n :: _ =>
          if n = methodName then
            [{ name := methodName,
               interfaceName := node.name,
               location := { file := p,
                             line := method.pos.line - 1,
                             column := method.pos.column - 1 },
               endLocation := { file := "", line := 0, column := 0 } }]
          else []
    else []

/-- `collectTypeMethods` (`main.go` lines 594–624): record every
receiver method into the nested type→name→info map.  The stored
locations keep the parser's one-based line and column unchanged; only
the end location's column is decremented. -/
def collectTypeMethods (p : String) (f : GoAst)
    (acc : List (String × List (String × MethodInfo))) :
    List (String × List (String × MethodInfo)) :=
  f.funcs.foldl
    (fun acc node =>
      match node.recv with
      | none => acc
      | some _ =>
        let receiverType := getReceiverType node.recv
        let inner := (alGet acc receiverType).getD []
        alSet acc receiverType
          (alSet inner node.name
            { location := { file := p,
                            line := node.pos.line,
                            column := node.pos.column },
              endLocation := { file := p,
                               line := node.endPos.line,
                               column := node.endPos.column - 1 } }))
    acc

/-! ### The directory tree and `filepath.Walk` -/

mutual
/-- One entry of the scanned file tree: a readable-and-parsable or
unreadable/unparsable file (`none` models both read and parse
failures), an entry whose stat fails (the walker is handed the error),
or a directory. -/
inductive FsTree where
  | file (name : String) (ast : Option GoAst)
  | errEntry (name : String)
  | dir (name : String) (children : FsForest)
deriving DecidableEq

/-- The children of a directory, in the lexical order in which
`filepath.Walk` and `filepath.Glob` enumerate them. -/
inductive FsForest where
  | nil
  | cons (t : FsTree) (rest : FsForest)
deriving DecidableEq
end

/-- Forest concatenation. -/
def appF : FsForest → FsForest → FsForest
  | FsForest.nil, g => g
  | FsForest.cons t rest, g => FsForest.cons t (appF rest g)

mutual
/-- `filepath.Walk` specialised to the two callback shapes of
`main.go`.  `abortOnErr` selects what the callback returns when handed
a traversal error (`findAllInterfacesInDirectory` returns nil and
continues; the other walks return the error, which stops the whole
walk).  `skipVH` selects whether directories whose path contains
`vendor` or whose name starts with a dot are skipped.  Files are
processed when the path ends in `.go`, does not end in `_test.go`, and
the file both reads and parses.  The second component reports whether
the walk was aborted by an error (i.e. whether `filepath.Walk` returned
a non-nil error). -/
def walkTree {σ : Type} (abortOnErr skipVH : Bool)
    (step : σ → String → GoAst → σ) (path : String) :
    FsTree → σ → σ × Bool
  | FsTree.file name ast, s =>
    let p := path ++ "/" ++ name
    if ¬ strEnds p ".go" then (s, false)
    else if strEnds p "_test.go" then (s, false)
    else match ast with
      | none => (s, false)
      | some f => (step s p f, false)
  | FsTree.errEntry _, s => (s, abortOnErr)
  | FsTree.dir name cs, s =>
    let p := path ++ "/" ++ name
    if skipVH && (strHasSub p "vendor" || strStarts name ".") then (s, false)
    else walkForest abortOnErr skipVH step p cs s

/-- Walk the children of a directory in order, stopping as soon as an
entry aborts the walk. -/
def walkForest {σ : Type} (abortOnErr skipVH : Bool)
    (step : σ → String → GoAst → σ) (path : String) :
    FsForest → σ → σ × Bool
  | FsForest.nil, s => (s, false)
  | FsForest.cons t rest, s =>
    match walkTree abortOnErr skipVH step path t s with
    | (s', true) => (s', true)
    | (s', false) => walkForest abortOnErr skipVH step path rest s'
end

/-- `filepath.Walk(rootPath, …)` on a root directory with the given
children.  `rootName` is the root's base name (`os.FileInfo.Name()` of
the root), used only by the vendor/hidden check. -/
def walkRoot {σ : Type} (abortOnErr skipVH : Bool)
    (step : σ → String → GoAst → σ) (rootPath rootName : String)
    (children : FsForest) (s : σ) : σ × Bool :=
  if skipVH && (strHasSub rootPath "vendor" || strStarts rootName ".") then (s, false)
  else walkForest abortOnErr skipVH step rootPath children s

/-- `filepath.Glob(dir + "/*.go")`: the immediate entries of the
directory whose name ends in `.go`, paired with their parse result (a
directory or stat-failing entry matched by the pattern fails to read,
hence `none`). -/
def globGoFiles (dirPath : String) : FsForest → List (String × Option GoAst)
  | FsForest.nil => []
  | FsForest.cons t rest =>
    (match t with
     | FsTree.file n ast =>
       if strEnds n ".go" then [(dirPath ++ "/" ++ n, ast)] else []
     | FsTree.errEntry n =>
       if strEnds n ".go" then [(dirPath ++ "/" ++ n, (none : Option GoAst))] else []
     | FsTree.dir n _ =>
       if strEnds n ".go" then [(dirPath ++ "/" ++ n, (none : Option GoAst))] else [])
    ++ globGoFiles dirPath rest

/-! ### `findAllInterfacesInDirectory` (`main.go` lines 308–410) -/

/-- Accumulation step of the recursive scan: append the file's interface
method lists. -/
def stepDirIfaces (s : List (List String)) (_p : String) (f : GoAst) :
    List (List String) :=
  s ++ interfaceMethodLists f

/-- The non-recursive fallback branch (`main.go` lines 364–407): glob the
immediate `.go` files, skip test files and unreadable/unparsable files,
and collect interface method lists. -/
def fallbackDirIfaces (dirPath : String) (children : FsForest) :
    List (List String) :=
  (globGoFiles dirPath children).foldl
    (fun acc fc =>
      if strEnds fc.1 "_test.go" then acc
      else match fc.2 with
        | none => acc
        | some f => acc ++ interfaceMethodLists f)
    []

/-- `findAllInterfacesInDirectory`: recursive walk whose callback
swallows traversal errors (returns nil), with a fallback to the flat
glob scan if `filepath.Walk` reported an error. -/
def findAllInterfacesInDirectory (dirPath rootName : String)
    (children : FsForest) : List (List String) :=
  let r := walkRoot false false stepDirIfaces dirPath rootName children []
  if r.2 then fallbackDirIfaces dirPath children else r.1

/-! ### `findFileImplementations` (`main.go` lines 217–305) -/

/-- The first inspection pass: the per-receiver-type method-name map
(`typeMethods`), built by appending in declaration order. -/
def buildTypeMethods (f : GoAst) : List (String × List String) :=
  f.funcs.foldl
    (fun acc node =>
      match node.recv with
      | none => acc
      | some _ => alPush acc (getReceiverType node.recv) node.name)
    []

/-- The second inspection pass: emit one `Implementation` (with
zero-based start and true end locations) for every declaration whose
receiver type matches. -/
def emitTypeImpls (filePath : String) (f : GoAst) (receiverType : String) :
    List Implementation :=
  lbind f.funcs fun node =>
    match node.recv with
    | none => []
    | some _ =>
      if getReceiverType node.recv = receiverType then
        [{ methodName := node.name,
           receiverType := receiverType,
           location := { file := filePath,
                         line := node.pos.line - 1,
                         column := node.pos.column - 1 },
           endLocation := { file := filePath,
                            line := node.endPos.line - 1,
                            column := node.endPos.column - 1 } }]
      else []

/-- `findFileImplementations` given the directory's interface list: for
each receiver type (in map-iteration order `tmOrd`), if its method set
subset-matches some candidate interface, emit all of its declarations.
(The Go code breaks after the first matching interface, but emits the
same entries whichever candidate matched, so matching `any` candidate
is the exact observable behaviour.) -/
def findFileImplementationsGiven (allInterfaces : List (List String))
    (filePath : String) (parsed : Option GoAst) (tmOrd : List String) :
    List Implementation :=
  if ¬ strEnds filePath ".go" then [] else
  match parsed with
  | none => []
  | some f =>
    let typeMethods := buildTypeMethods f
    lbind tmOrd fun receiverType =>
      match alGet typeMethods receiverType with
      | none => []
      | some methods =>
        if allInterfaces.any fun interfaceMethods =>
            isExactMatch methods interfaceMethods then
          emitTypeImpls filePath f receiverType
        else []

/-- `findFileImplementations`: the candidate interfaces are gathered
from the file's containing directory (`filepath.Dir`), passed here as
`dirPath`/`rootName`/`children`. -/
def findFileImplementations (dirPath rootName : String) (children : FsForest)
    (filePath : String) (parsed : Option GoAst) (tmOrd : List String) :
    List Implementation :=
  findFileImplementationsGiven
    (findAllInterfacesInDirectory dirPath rootName children)
    filePath parsed tmOrd

/-! ### The tree-scoped queries (`main.go` lines 432–544, 547–584,
709–772) -/

/-- `findAllInterfacesWithMethods`: recursive walk (vendor/hidden
directories skipped, traversal errors abort the walk and are then
ignored), appending every interface of every surviving file. -/
def findAllInterfacesWithMethods (rootPath rootName : String)
    (children : FsForest) : List InterfaceInfo :=
  (walkRoot true true (fun s _p f => s ++ fileInterfaceInfos f)
    rootPath rootName children []).1

/-- `collectAllTypeMethods`: same walk shape, accumulating the nested
receiver-type → method-name → `MethodInfo` map. -/
def collectAllTypeMethods (rootPath rootName : String)
    (children : FsForest) : List (String × List (String × MethodInfo)) :=
  (walkRoot true true (fun s p f => collectTypeMethods p f s)
    rootPath rootName children []).1

/-- The target-selection loop of `findImplementations` (`main.go` lines
439–449): the first interface, in walk order, whose method list
contains the requested name. -/
def firstTargetInterface (allInterfaces : List InterfaceInfo)
    (methodName : String) : Option InterfaceInfo :=
  match allInterfaces with
  | [] => none
  | iface :: rest =>
    if smem methodName iface.methods then some iface
    else firstTargetInterface rest methodName

/-- `findImplementations` after its two scans: for each receiver type
(in map-iteration order `ord`), if its method-name set subset-matches
the single target interface, emit the one entry for the requested
method.  (The method-name list handed to `isExactMatch` is iterated
from a map in Go; `isExactMatch` only tests membership, so the
insertion-ordered key list is observably equivalent.) -/
def findImplementationsFrom (allInterfaces : List InterfaceInfo)
    (allTypeMethods : List (String × List (String × MethodInfo)))
    (methodName : String) (ord : List String) : List Implementation :=
  match firstTargetInterface allInterfaces methodName with
  | none => []
  | some target =>
    lbind ord fun typeName =>
      match alGet allTypeMethods typeName with
      | none => []
      | some methods =>
        let methodNames := methods.map Prod.fst
        if isExactMatch methodNames target.methods then
          match alGet methods methodName with
          | none => []
          | some methodInfo =>
            [{ methodName := methodName,
               receiverType := typeName,
               location := methodInfo.location,
               endLocation := methodInfo.endLocation }]
        else []

/-- `findImplementations` (the `find-implementations` verb). -/
def findImplementations (rootPath rootName : String) (children : FsForest)
    (methodName : String) (ord : List String) : List Implementation :=
  findImplementationsFrom
    (findAllInterfacesWithMethods rootPath rootName children)
    (collectAllTypeMethods rootPath rootName children)
    methodName ord

/-- `findInterfaces` (the `find-interfaces` verb): recursive walk
(vendor/hidden skipped, errors abort and are ignored) collecting the
matching interface-method entries. -/
def findInterfaces (rootPath rootName : String) (children : FsForest)
    (methodName : String) : List InterfaceMethod :=
  (walkRoot true true (fun s p f => s ++ fileInterfaceMatches methodName p f)
    rootPath rootName children []).1

/-! ### `analyzePackageInterfaces` (`main.go` lines 46–96) -/

/-- Phase 1–2 of `analyzePackageInterfaces`: glob the immediate `.go`
files and build the two indexes — interface name → its
`InterfaceMethod` entries, and `receiver.method` → `Implementation`
entries.  `tmOrds` supplies, per file path, the iteration order of the
`typeMethods` map inside that file's `findFileImplementations` call. -/
def apCollect (dirPath rootName : String) (children : FsForest)
    (tmOrds : String → List String) :
    List (String × List InterfaceMethod) × List (String × List Implementation) :=
  (globGoFiles dirPath children).foldl
    (fun acc fc =>
      let fileIfaces := findFileInterfaces fc.1 fc.2
      let fileImpls :=
        findFileImplementations dirPath rootName children fc.1 fc.2 (tmOrds fc.1)
      let interfaces :=
        fileIfaces.foldl (fun m iface => alPush m iface.interfaceName iface) acc.1
      let implementations :=
        fileImpls.foldl
          (fun m impl => alPush m (impl.receiverType ++ "." ++ impl.methodName) impl)
          acc.2
      (interfaces, implementations))
    ([], [])

/-- Innermost body of the matching loops of `analyzePackageInterfaces`:
on a name match, append to `interfaceImplementations` and assign
`methodToInterface`. -/
def apStepImpl (interfaceName : String) (method : InterfaceMethod)
    (acc : PackageAnalysisResult) (impl : Implementation) :
    PackageAnalysisResult :=
  if impl.methodName = method.name then
    { interfaceImplementations :=
        alPush acc.interfaceImplementations interfaceName impl.methodName,
      methodToInterface :=
        alSet acc.methodToInterface impl.methodName interfaceName }
  else acc

/-- Loop over the entries stored under one implementations-map key. -/
def apStepKey (implementations : List (String × List Implementation))
    (interfaceName : String) (method : InterfaceMethod)
    (acc : PackageAnalysisResult) (implKey : String) : PackageAnalysisResult :=
  match alGet implementations implKey with
  | none => acc
  | some impls => impls.foldl (apStepImpl interfaceName method) acc

/-- Loop over the implementations map in iteration order `o2`, for one
interface method. -/
def apStepMethod (implementations : List (String × List Implementation))
    (o2 : List String) (interfaceName : String)
    (acc : PackageAnalysisResult) (method : InterfaceMethod) :
    PackageAnalysisResult :=
  o2.foldl (apStepKey implementations interfaceName method) acc

/-- Loop over one interface's methods. -/
def apStepIface (interfaces : List (String × List InterfaceMethod))
    (implementations : List (String × List Implementation))
    (o2 : List String) (acc : PackageAnalysisResult)
    (interfaceName : String) : PackageAnalysisResult :=
  match alGet interfaces interfaceName with
  | none => acc
  | some methods => methods.foldl (apStepMethod implementations o2 interfaceName) acc

/-- Phase 3 of `analyzePackageInterfaces`: range over the interfaces map
(iteration order `o1`), over each interface's methods, over the
implementations map (iteration order `o2`) and its entries. -/
def apMatch (interfaces : List (String × List InterfaceMethod))
    (implementations : List (String × List Implementation))
    (o1 o2 : List String) : PackageAnalysisResult :=
  o1.foldl (apStepIface interfaces implementations o2)
    { interfaceImplementations := [], methodToInterface := [] }

/-- `analyzePackageInterfaces` (the `analyze-package-interfaces` verb). -/
def analyzePackageInterfaces (dirPath rootName : String) (children : FsForest)
    (tmOrds : String → List String) (o1 o2 : List String) :
    PackageAnalysisResult :=
  let c := apCollect dirPath rootName children tmOrds
  apMatch c.1 c.2 o1 o2

/-- An iteration order is valid for a map exactly when it is a
permutation of the map's keys (`List.isPerm` decides permutation). -/
@[reducible] def validOrd {α : Type} (m : List (String × α)) (ord : List String) : Prop :=
  ord.isPerm (m.map Prod.fst) = true

/-! ### The fallback behaviour the specification claims for all walks -/

/-- Modelled from the spec: the degraded behaviour §4.2/§7(c) claim for
*every* traversal fault — "it degrades to scanning only the root
directory's immediate files non-recursively".  For the find-interfaces
walk this is the flat glob scan of the root, collecting the matching
interface-method entries of its immediate `.go` files (test files
skipped, as the flat scan of `findAllInterfacesInDirectory` does). -/
def specFlatFallbackInterfaces (dirPath : String) (children : FsForest)
    (methodName : String) : List InterfaceMethod :=
  (globGoFiles dirPath children).foldl
    (fun acc fc =>
      if strEnds fc.1 "_test.go" then acc
      else match fc.2 with
        | none => acc
        | some f => acc ++ fileInterfaceMatches methodName fc.1 f)
    []

/-! ### Concrete fixtures used by counterexamples and witnesses -/

/-- A file declaring `interface I { M }` (method at one-based 2:2) and
`func (T) M` spanning one-based 5:1–7:2. -/
def astIM : GoAst :=
  { types := [{ name := "I", isInterface := true,
                methods := [{ names := ["M"], pos := ⟨2, 2⟩ }] }],
    funcs := [{ name := "M", recv := some [RecvExpr.ident "T"],
                pos := ⟨5, 1⟩, endPos := ⟨7, 2⟩ }] }

/-- Directory with the single file `a.go` containing `astIM`. -/
def f1 : FsForest := FsForest.cons (FsTree.file "a.go" (some astIM)) FsForest.nil

/-- `interface A { Close }`. -/
def astA : GoAst :=
  { types := [{ name := "A", isInterface := true,
                methods := [{ names := ["Close"], pos := ⟨2, 2⟩ }] }],
    funcs := [] }

/-- `interface B { Close; Flush }`. -/
def astB : GoAst :=
  { types := [{ name := "B", isInterface := true,
                methods := [{ names := ["Close"], pos := ⟨2, 2⟩ },
                            { names := ["Flush"], pos := ⟨3, 2⟩ }] }],
    funcs := [] }

/-- `func (T) Close` only: `T` fully implements `A` but not `B`. -/
def astT : GoAst :=
  { types := [],
    funcs := [{ name := "Close", recv := some [RecvExpr.ident "T"],
                pos := ⟨2, 1⟩, endPos := ⟨3, 2⟩ }] }

/-- Scenario B directory: `A` and `B` declare `Close` in different
files; `T` implements only `A`'s full method set. -/
def bF : FsForest :=
  FsForest.cons (FsTree.file "a.go" (some astA))
    (FsForest.cons (FsTree.file "b.go" (some astB))
      (FsForest.cons (FsTree.file "t.go" (some astT)) FsForest.nil))

/-- Map-iteration orders for the per-file `typeMethods` maps of the
Scenario B directory: only `t.go` declares methods, on receiver `T`. -/
def bTmOrds : String → List String := fun p => if p = "r/t.go" then ["T"] else []

/-- `interface I { Foo }` in a file of its own. -/
def astVI : GoAst :=
  { types := [{ name := "I", isInterface := true,
                methods := [{ names := ["Foo"], pos := ⟨2, 2⟩ }] }],
    funcs := [] }

/-- `func (T) Foo` in a file of its own. -/
def astVT : GoAst :=
  { types := [],
    funcs := [{ name := "Foo", recv := some [RecvExpr.ident "T"],
                pos := ⟨2, 1⟩, endPos := ⟨3, 2⟩ }] }

/-- Directory whose only interface lives under `vendor/`. -/
def vF : FsForest :=
  FsForest.cons (FsTree.file "t.go" (some astVT))
    (FsForest.cons
      (FsTree.dir "vendor"
        (FsForest.cons (FsTree.file "i.go" (some astVI)) FsForest.nil))
      FsForest.nil)

/-- The same directory with the `vendor/` subtree removed. -/
def vFnoVendor : FsForest :=
  FsForest.cons (FsTree.file "t.go" (some astVT)) FsForest.nil

/-- Directory whose first entry fails to stat and whose second file
declares `interface I { Foo }`. -/
def c6F : FsForest :=
  FsForest.cons (FsTree.errEntry "a")
    (FsForest.cons (FsTree.file "b.go" (some astVI)) FsForest.nil)

/-- A method on a receiver of a shape `getReceiverType` cannot name
(e.g. a generic `T[P]` receiver, an index expression): `func (… other …)
Foo` spanning one-based 3:1–4:2. -/
def astOther : GoAst :=
  { types := [],
    funcs := [{ name := "Foo", recv := some [RecvExpr.other],
                pos := ⟨3, 1⟩, endPos := ⟨4, 2⟩ }] }

/-- Directory with `interface I { Foo }` and the unnameable-receiver
`Foo` declaration. -/
def c9F : FsForest :=
  FsForest.cons (FsTree.file "i.go" (some astVI))
    (FsForest.cons (FsTree.file "t.go" (some astOther)) FsForest.nil)

/-- An interface with only an embedded-interface entry (no explicitly
named method). -/
def astEmb : GoAst :=
  { types := [{ name := "E", isInterface := true,
                methods := [{ names := [], pos := ⟨2, 2⟩ }] }],
    funcs := [] }

/-- Directory whose only interface has no explicitly named methods,
next to a file declaring `func (T) Foo`. -/
def c10F : FsForest :=
  FsForest.cons (FsTree.file "e.go" (some astEmb))
    (FsForest.cons (FsTree.file "t.go" (some astVT)) FsForest.nil)

/-- `interface W { Ping }`, declared in a test file in fixture `tF`. -/
def astW : GoAst :=
  { types := [{ name := "W", isInterface := true,
                methods := [{ names := ["Ping"], pos := ⟨2, 2⟩ }] }],
    funcs := [] }

/-- `interface I2 { Ping }`. -/
def astI2 : GoAst :=
  { types := [{ name := "I2", isInterface := true,
                methods := [{ names := ["Ping"], pos := ⟨2, 2⟩ }] }],
    funcs := [] }

/-- `func (T) Ping`. -/
def astT2 : GoAst :=
  { types := [],
    funcs := [{ name := "Ping", recv := some [RecvExpr.ident "T"],
                pos := ⟨2, 1⟩, endPos := ⟨3, 2⟩ }] }

/-- Directory with a test file `a_test.go` declaring `W`, plus `I2` and
`func (T) Ping` in regular files. -/
def tF : FsForest :=
  FsForest.cons (FsTree.file "a_test.go" (some astW))
    (FsForest.cons (FsTree.file "i.go" (some astI2))
      (FsForest.cons (FsTree.file "t.go" (some astT2)) FsForest.nil))

/-- Per-file `typeMethods` iteration orders for `tF`. -/
def tTmOrds : String → List String := fun p => if p = "r/t.go" then ["T"] else []

/-- All `MethodInfo` values of the nested receiver-type → method-name →
info map. -/
def atmValues (atm : List (String × List (String × MethodInfo))) :
    List MethodInfo :=
  lbind atm fun kv => kv.2.map Prod.snd

/-- Whether a receiver type satisfies, under the subset policy, the
first interface of the list declaring the requested method (the
type-selection criterion of `findImplementations`). -/
def satisfiesTarget (allInterfaces : List InterfaceInfo)
    (atm : List (String × List (String × MethodInfo)))
    (methodName ty : String) : Bool :=
  match firstTargetInterface allInterfaces methodName with
  | none => false
  | some target =>
    match alGet atm ty with
    | none => false
    | some methods => isExactMatch (methods.map Prod.fst) target.methods

/-! ### Helper lemmas -/

theorem smem_iff (x : String) (l : List String) : smem x l = true ↔ x ∈ l := by
  induction l with
  | nil => simp [smem]
  | cons y ys ih =>
    simp only [smem, Bool.or_eq_true, decide_eq_true_eq, List.mem_cons, ih]
    constructor
    · rintro (h | h)
      · exact Or.inl h.symm
      · exact Or.inr h
    · rintro (h | h)
      · exact Or.inl h.symm
      · exact Or.inr h

theorem mem_lbind {α β : Type} {l : List α} {f : α → List β} {b : β} :
    b ∈ lbind l f ↔ ∃ a ∈ l, b ∈ f a := by
  induction l with
  | nil => simp [lbind]
  | cons a as ih => simp [lbind, ih, List.mem_append, or_and_right, exists_or]

theorem alGet_alSet {α : Type} (m : List (String × α)) (k k' : String) (v : α) :
    alGet (alSet m k v) k' = if k = k' then some v else alGet m k' := by
  induction m with
  | nil =>
    by_cases h : k = k' <;> simp [alSet, alGet, h]
  | cons p rest ih =>
    obtain ⟨k₀, v₀⟩ := p
    by_cases h0 : k₀ = k
    · subst h0
      by_cases h : k₀ = k' <;> simp [alSet, alGet, h]
    · by_cases h : k₀ = k'
      · subst h
        have hk : ¬ k = k₀ := fun hh => h0 hh.symm
        simp [alSet, alGet, h0, hk]
      · simp [alSet, alGet, h0, h, ih]

theorem alGet_some_mem {α : Type} {m : List (String × α)} {k : String} {v : α}
    (h : alGet m k = some v) : k ∈ m.map Prod.fst := by
  induction m with
  | nil => simp [alGet] at h
  | cons p rest ih =>
    obtain ⟨k₀, v₀⟩ := p
    by_cases hk : k₀ = k
    · simp [hk]
    · simp only [alGet, hk, if_false] at h
      simp [ih h]
theorem foldl_pres {α β : Type} (P : α → Prop) (f : α → β → α) (l : List β)
    (hpre : ∀ a y, y ∈ l → P a → P (f a y)) :
    ∀ a₀, P a₀ → P (l.foldl f a₀) := by
  induction l with
  | nil => intro a₀ h; simpa using h
  | cons b bs ih =>
    intro a₀ h
    simp only [List.foldl_cons]
    exact ih (fun a y hy => hpre a y (List.mem_cons_of_mem _ hy))
      (f a₀ b) (hpre a₀ b (List.mem_cons_self _ _) h)

theorem foldl_establish {α β : Type} (P : α → Prop) (f : α → β → α)
    (l : List β) (x : β) (hx : x ∈ l) (hest : ∀ a, P (f a x))
    (hpre : ∀ a y, y ∈ l → P a → P (f a y)) (a₀ : α) :
    P (l.foldl f a₀) := by
  induction l generalizing a₀ with
  | nil => cases hx
  | cons b bs ih =>
    simp only [List.foldl_cons]
    rcases List.mem_cons.mp hx with hb | hbs
    · subst hb
      exact foldl_pres P f bs
        (fun a y hy => hpre a y (List.mem_cons_of_mem _ hy)) _ (hest a₀)
    · exact ih hbs (fun a y hy => hpre a y (List.mem_cons_of_mem _ hy)) _

theorem findFileInterfaces_mem {filePath : String} {parsed : Option GoAst}
    {e : InterfaceMethod} (h : e ∈ findFileInterfaces filePath parsed) :
    ∃ f node method n rest,
      parsed = some f ∧ node ∈ f.types ∧ node.isInterface = true ∧
      method ∈ node.methods ∧ method.names = n :: rest ∧
      e = { name := n, interfaceName := node.name,
            location := ⟨filePath, method.pos.line - 1, method.pos.column - 1⟩,
            endLocation := ⟨filePath, method.pos.line, 0⟩ } := by
  unfold findFileInterfaces at h
  split at h
  · cases h
  · split at h
    · cases h
    · rename_i f
      rw [mem_lbind] at h
      obtain ⟨node, hnode, h⟩ := h
      by_cases hi : node.isInterface
      · rw [if_pos hi, mem_lbind] at h
        obtain ⟨method, hmethod, h⟩ := h
        rcases hn : method.names with _ | ⟨n, rest⟩
        · rw [hn] at h; cases h
        · rw [hn] at h
          simp only [List.mem_singleton] at h
          exact ⟨f, node, method, n, rest, rfl, hnode, hi, hmethod, hn, h⟩
      · rw [if_neg hi] at h; cases h

theorem emitTypeImpls_mem {filePath : String} {f : GoAst} {rt : String}
    {e : Implementation} (h : e ∈ emitTypeImpls filePath f rt) :
    ∃ node ∈ f.funcs, node.recv ≠ none ∧ getReceiverType node.recv = rt ∧
      e = { methodName := node.name, receiverType := rt,
            location := ⟨filePath, node.pos.line - 1, node.pos.column - 1⟩,
            endLocation := ⟨filePath, node.endPos.line - 1, node.endPos.column - 1⟩ } := by
  unfold emitTypeImpls at h
  rw [mem_lbind] at h
  obtain ⟨node, hnode, h⟩ := h
  rcases hr : node.recv with _ | rl
  · rw [hr] at h
    simp at h
  · rw [hr] at h
    by_cases hrt : getReceiverType (some rl) = rt
    · simp only [hrt, if_pos, List.mem_singleton] at h
      exact ⟨node, hnode, by rw [hr]; simp, by rw [hr]; exact hrt, h⟩
    · simp [hrt] at h

theorem findFileImplementationsGiven_mem {allInterfaces : List (List String)}
    {filePath : String} {parsed : Option GoAst} {ord : List String}
    {e : Implementation}
    (h : e ∈ findFileImplementationsGiven allInterfaces filePath parsed ord) :
    ∃ f node, parsed = some f ∧ node ∈ f.funcs ∧ node.recv ≠ none ∧
      getReceiverType node.recv = e.receiverType ∧
      e = { methodName := node.name, receiverType := e.receiverType,
            location := ⟨filePath, node.pos.line - 1, node.pos.column - 1⟩,
            endLocation := ⟨filePath, node.endPos.line - 1, node.endPos.column - 1⟩ } := by
  unfold findFileImplementationsGiven at h
  split at h
  · cases h
  · split at h
    · cases h
    · rename_i f
      rw [mem_lbind] at h
      obtain ⟨rt, _hrt, h⟩ := h
      rcases hg : alGet (buildTypeMethods f) rt with _ | methods
      · rw [hg] at h
        simp at h
      · rw [hg] at h
        by_cases hany : (allInterfaces.any fun im => isExactMatch methods im) = true
        · simp only [hany, if_pos] at h
          obtain ⟨node, hnode, hrecv, hgrt, he⟩ := emitTypeImpls_mem h
          subst he
          exact ⟨f, node, rfl, hnode, hrecv, hgrt, rfl⟩
        · simp [hany] at h

theorem fileInterfaceMatches_mem {methodName p : String} {f : GoAst}
    {e : InterfaceMethod} (h : e ∈ fileInterfaceMatches methodName p f) :
    ∃ node method rest,
      node ∈ f.types ∧ node.isInterface = true ∧ method ∈ node.methods ∧
      method.names = methodName :: rest ∧
      e = { name := methodName, interfaceName := node.name,
            location := ⟨p, method.pos.line - 1, method.pos.column - 1⟩,
            endLocation := ⟨"", 0, 0⟩ } := by
  unfold fileInterfaceMatches at h
  rw [mem_lbind] at h
  obtain ⟨node, hnode, h⟩ := h
  by_cases hi : node.isInterface
  · rw [if_pos hi, mem_lbind] at h
    obtain ⟨method, hmethod, h⟩ := h
    rcases hn : method.names with _ | ⟨n, rest⟩
    · rw [hn] at h
      simp at h
    · rw [hn] at h
      by_cases hnm : n = methodName
    <;> first
      | (simp [hnm] at h
         subst hnm
         exact ⟨node, method, rest, hnode, hi, hmethod, hn, h⟩)
      | simp [hnm] at h
  · rw [if_neg hi] at h; cases h

mutual
theorem walkTree_inv {σ : Type} (P : σ → Prop) (a v : Bool)
    (step : σ → String → GoAst → σ)
    (hstep : ∀ s p f, P s → P (step s p f)) :
    ∀ (t : FsTree) (path : String) (s : σ), P s → P (walkTree a v step path t s).1
  | FsTree.file n none, path, s, hs => by
    simp only [walkTree]
    split
    · exact hs
    · split <;> exact hs
  | FsTree.file n (some f), path, s, hs => by
    simp only [walkTree]
    split
    · exact hs
    · split
      · exact hs
      · exact hstep s _ f hs
  | FsTree.errEntry n, path, s, hs => hs
  | FsTree.dir n cs, path, s, hs => by
    simp only [walkTree]
    split
    · exact hs
    · exact walkForest_inv P a v step hstep cs _ s hs

theorem walkForest_inv {σ : Type} (P : σ → Prop) (a v : Bool)
    (step : σ → String → GoAst → σ)
    (hstep : ∀ s p f, P s → P (step s p f)) :
    ∀ (cs : FsForest) (path : String) (s : σ), P s → P (walkForest a v step path cs s).1
  | FsForest.nil, _path, _s, hs => hs
  | FsForest.cons t rest, path, s, hs => by
    simp only [walkForest]
    have h1 := walkTree_inv P a v step hstep t path s hs
    match hw : walkTree a v step path t s with
    | (s', true) => rw [hw] at h1; exact h1
    | (s', false) =>
      rw [hw] at h1
      exact walkForest_inv P a v step hstep rest path s' h1
end

mutual
theorem walkTree_noAbort {σ : Type} (v : Bool) (step : σ → String → GoAst → σ) :
    ∀ (t : FsTree) (path : String) (s : σ),
      (walkTree false v step path t s).2 = false
  | FsTree.file n none, path, s => by
    simp only [walkTree]
    split
    · rfl
    · split <;> rfl
  | FsTree.file n (some f), path, s => by
    simp only [walkTree]
    split
    · rfl
    · split <;> rfl
  | FsTree.errEntry n, _path, _s => rfl
  | FsTree.dir n cs, path, s => by
    simp only [walkTree]
    split
    · rfl
    · exact walkForest_noAbort v step cs _ s

theorem walkForest_noAbort {σ : Type} (v : Bool) (step : σ → String → GoAst → σ) :
    ∀ (cs : FsForest) (path : String) (s : σ),
      (walkForest false v step path cs s).2 = false
  | FsForest.nil, _path, _s => rfl
  | FsForest.cons t rest, path, s => by
    simp only [walkForest]
    have h1 := walkTree_noAbort v step t path s
    rcases hw : walkTree false v step path t s with ⟨s', b⟩
    rw [hw] at h1
    cases b
    · exact walkForest_noAbort v step rest path s'
    · cases h1
end

theorem walkForest_skip {σ : Type} (a v : Bool) (step : σ → String → GoAst → σ)
    (p : String) (c : FsTree)
    (hc : ∀ s : σ, walkTree a v step p c s = (s, false)) :
    ∀ (cs₁ cs₂ : FsForest) (s : σ),
      walkForest a v step p (appF cs₁ (FsForest.cons c cs₂)) s =
        walkForest a v step p (appF cs₁ cs₂) s
  | FsForest.nil, cs₂, s => by
    simp only [appF, walkForest, hc]
  | FsForest.cons t rest, cs₂, s => by
    simp only [appF, walkForest]
    rcases hw : walkTree a v step p t s with ⟨s', b⟩
    cases b
    · exact walkForest_skip a v step p c hc rest cs₂ s'
    · rfl

theorem walkForest_errStop {σ : Type} (v : Bool) (step : σ → String → GoAst → σ)
    (p n : String) :
    ∀ (cs₁ cs₂ : FsForest) (s : σ),
      (walkForest true v step p cs₁ s).2 = false →
      walkForest true v step p (appF cs₁ (FsForest.cons (FsTree.errEntry n) cs₂)) s =
        ((walkForest true v step p cs₁ s).1, true)
  | FsForest.nil, cs₂, s, _h => by
    simp only [appF, walkForest, walkTree]
  | FsForest.cons t rest, cs₂, s, h => by
    simp only [appF, walkForest] at h ⊢
    rcases hw : walkTree true v step p t s with ⟨s', b⟩
    rw [hw] at h
    cases b
    · exact walkForest_errStop v step p n rest cs₂ s' h
    · rfl

theorem mem_alSet {α : Type} {m : List (String × α)} {k : String} {v : α}
    {x : String × α} (h : x ∈ alSet m k v) : x ∈ m ∨ x = (k, v) := by
  induction m with
  | nil => simp [alSet] at h; simp [h]
  | cons p rest ih =>
    obtain ⟨k₀, v₀⟩ := p
    by_cases hk : k₀ = k
    · rw [alSet, if_pos hk] at h
      rcases List.mem_cons.mp h with h | h
      · subst hk; exact Or.inr (by simp [h])
      · exact Or.inl (List.mem_cons_of_mem _ h)
    · rw [alSet, if_neg hk] at h
      rcases List.mem_cons.mp h with h | h
      · exact Or.inl (by simp [h])
      · rcases ih h with h | h
        · exact Or.inl (List.mem_cons_of_mem _ h)
        · exact Or.inr h

theorem alGet_some_pair_mem {α : Type} {m : List (String × α)} {k : String}
    {v : α} (h : alGet m k = some v) : (k, v) ∈ m := by
  induction m with
  | nil => simp [alGet] at h
  | cons p rest ih =>
    obtain ⟨k₀, v₀⟩ := p
    by_cases hk : k₀ = k
    · rw [alGet, if_pos hk] at h
      subst hk
      simp only [Option.some.injEq] at h
      simp [h]
    · rw [alGet, if_neg hk] at h
      exact List.mem_cons_of_mem _ (ih h)

/-- Every method-name list recorded by `interfaceMethodLists` is
nonempty (the `len(methods) > 0` guard). -/
theorem interfaceMethodLists_ne_nil {f : GoAst} {ms : List String}
    (h : ms ∈ interfaceMethodLists f) : ms ≠ [] := by
  unfold interfaceMethodLists at h
  rw [mem_lbind] at h
  obtain ⟨node, _hnode, h⟩ := h
  by_cases hi : node.isInterface
  · rw [if_pos hi] at h
    simp only [] at h
    split at h
    · rename_i hlen
      simp only [List.mem_singleton] at h
      subst h
      intro hnil
      rw [hnil] at hlen
      simp at hlen
    · cases h
  · rw [if_neg hi] at h; cases h

/-- C4: the subset-policy predicate `isExactMatch` returns true exactly
when every method name in the interface's list is an element of the set
built from the type's method names; names on the type that are not in
the interface's list never make it false, and the empty interface
method list always yields true. -/
theorem C4_subset_policy (typeMethods interfaceMethods : List String) :
    (isExactMatch typeMethods interfaceMethods = true ↔
      ∀ m ∈ interfaceMethods, m ∈ typeMethods) ∧
    isExactMatch typeMethods [] = true := by
  constructor
  · simp only [isExactMatch, List.all_eq_true, smem_iff]
  · simp [isExactMatch]

/-- C8: the two meanings of `endLocation` are not unified: every entry
of `fileInterfaces` has `endLocation` on the line after its own
zero-based line at column zero, while every entry of
`fileImplementations` carries the true zero-based end position of the
declaration it stems from. -/
theorem C8_dual_endLocation :
    (∀ (filePath : String) (parsed : Option GoAst) (e : InterfaceMethod),
      e ∈ findFileInterfaces filePath parsed →
        e.endLocation = ⟨filePath, e.location.line + 1, 0⟩) ∧
    (∀ (allInterfaces : List (List String)) (filePath : String)
        (parsed : Option GoAst) (ord : List String) (e : Implementation),
      e ∈ findFileImplementationsGiven allInterfaces filePath parsed ord →
        ∃ f node, parsed = some f ∧ node ∈ f.funcs ∧
          node.name = e.methodName ∧
          e.endLocation = ⟨filePath, node.endPos.line - 1, node.endPos.column - 1⟩) := by
  constructor
  · intro filePath parsed e h
    obtain ⟨f, node, method, n, rest, _, _, _, _, _, he⟩ := findFileInterfaces_mem h
    subst he
    show Location.mk filePath method.pos.line 0 =
      Location.mk filePath (method.pos.line - 1 + 1) 0
    congr 1
    omega
  · intro allInterfaces filePath parsed ord e h
    obtain ⟨f, node, hp, hnode, _, _, he⟩ := findFileImplementationsGiven_mem h
    exact ⟨f, node, hp, hnode, (congrArg Implementation.methodName he).symm,
      congrArg Implementation.endLocation he⟩

/-- Closed instance of `C8_dual_endLocation` at the fixture file. -/
theorem C8_witness :
    ({ name := "M", interfaceName := "I", location := ⟨"r/a.go", 1, 1⟩,
       endLocation := ⟨"r/a.go", 2, 0⟩ } : InterfaceMethod).endLocation =
      ⟨"r/a.go",
        ({ name := "M", interfaceName := "I", location := ⟨"r/a.go", 1, 1⟩,
           endLocation := ⟨"r/a.go", 2, 0⟩ } : InterfaceMethod).location.line + 1,
        0⟩ ∧
    ∃ f node, (some astIM : Option GoAst) = some f ∧ node ∈ f.funcs ∧
      node.name =
        ({ methodName := "M", receiverType := "T", location := ⟨"r/a.go", 4, 0⟩,
           endLocation := ⟨"r/a.go", 6, 1⟩ } : Implementation).methodName ∧
      ({ methodName := "M", receiverType := "T", location := ⟨"r/a.go", 4, 0⟩,
         endLocation := ⟨"r/a.go", 6, 1⟩ } : Implementation).endLocation =
        ⟨"r/a.go", node.endPos.line - 1, node.endPos.column - 1⟩ :=
  ⟨C8_dual_endLocation.1 "r/a.go" (some astIM) _ (by decide),
   C8_dual_endLocation.2 [["M"]] "r/a.go" (some astIM) ["T"] _ (by decide)⟩

/-- Every value stored in the nested map by `collectTypeMethods` either
was already present or records the parser's one-based start position
unchanged (and the one-based end line, with only the end column
decremented) of some receiver declaration of the inspected file. -/
theorem collectTypeMethods_values {p : String} {f : GoAst}
    {acc : List (String × List (String × MethodInfo))} {mi : MethodInfo}
    (h : mi ∈ atmValues (collectTypeMethods p f acc)) :
    mi ∈ atmValues acc ∨
      ∃ node ∈ f.funcs, node.recv ≠ none ∧
        mi = { location := ⟨p, node.pos.line, node.pos.column⟩,
               endLocation := ⟨p, node.endPos.line, node.endPos.column - 1⟩ } := by
  unfold collectTypeMethods at h
  revert h
  refine foldl_pres
    (fun s => mi ∈ atmValues s → mi ∈ atmValues acc ∨
      ∃ node ∈ f.funcs, node.recv ≠ none ∧
        mi = { location := ⟨p, node.pos.line, node.pos.column⟩,
               endLocation := ⟨p, node.endPos.line, node.endPos.column - 1⟩ })
    _ f.funcs ?_ acc (fun hmi => Or.inl hmi)
  intro s node hnode ih hmem
  rcases hr : node.recv with _ | rl
  · rw [hr] at hmem
    exact ih hmem
  · rw [hr] at hmem
    simp only [atmValues, mem_lbind] at hmem
    obtain ⟨kv, hkv, hmi⟩ := hmem
    rcases mem_alSet hkv with hkv | hkv
    · exact ih (by simp only [atmValues, mem_lbind]; exact ⟨kv, hkv, hmi⟩)
    · subst hkv
      simp only [List.mem_map] at hmi
      obtain ⟨nv, hnv, hmi2⟩ := hmi
      rcases mem_alSet hnv with hnv | hnv
      · -- value was in the previous inner list for this receiver
        rcases hg : alGet s (getReceiverType node.recv) with _ | inner
        · rw [hr] at hg
          rw [hg] at hnv
          simp at hnv
        · rw [hr] at hg
          rw [hg] at hnv
          refine ih ?_
          simp only [atmValues, mem_lbind]
          exact ⟨(getReceiverType node.recv, inner), by rw [hr]; exact alGet_some_pair_mem hg,
            by rw [← hmi2]; exact List.mem_map_of_mem Prod.snd hnv⟩
      · subst hnv
        exact Or.inr ⟨node, hnode, by simp [hr], by rw [← hmi2]⟩

/-- Entries of `findImplementationsFrom` copy the location and end
location of a stored `MethodInfo` value unchanged. -/
theorem findImplementationsFrom_locations {allInterfaces : List InterfaceInfo}
    {atm : List (String × List (String × MethodInfo))} {methodName : String}
    {ord : List String} {e : Implementation}
    (h : e ∈ findImplementationsFrom allInterfaces atm methodName ord) :
    ∃ mi ∈ atmValues atm, e.location = mi.location ∧
      e.endLocation = mi.endLocation := by
  unfold findImplementationsFrom at h
  rcases ht : firstTargetInterface allInterfaces methodName with _ | target
  · rw [ht] at h; cases h
  · rw [ht] at h
    rw [mem_lbind] at h
    obtain ⟨typeName, _hty, h⟩ := h
    rcases hg : alGet atm typeName with _ | methods
    · rw [hg] at h; simp at h
    · rw [hg] at h
      simp only [] at h
      split at h
      · rcases hm : alGet methods methodName with _ | mi
        · rw [hm] at h; simp at h
        · rw [hm] at h
          simp only [List.mem_singleton] at h
          subst h
          refine ⟨mi, ?_, rfl, rfl⟩
          simp only [atmValues, mem_lbind]
          exact ⟨(typeName, methods), alGet_some_pair_mem hg,
            List.mem_map_of_mem Prod.snd (alGet_some_pair_mem hm)⟩
      · cases h

/-- C1 (counterexample): on a directory whose single file declares
`interface I { M }` and `func (T) M` starting at one-based 5:1, the
`find-implementations` verb emits location line 5, column 1 — the
parser's one-based position unchanged — where the claim requires the
zero-based 4:0 that `find-file-implementations` emits for the very same
declaration.  The third conjunct checks that `["T"]` is exactly the
key list of the type-method map, i.e. a legitimate iteration order. -/
theorem C1_counterexample :
    ((findImplementations "r" "r" f1 "M" ["T"]).map fun i =>
        (i.location.line, i.location.column)) = [((5 : Int), (1 : Int))] ∧
    ((findFileImplementations "r" "r" f1 "r/a.go" (some astIM) ["T"]).map fun i =>
        (i.location.line, i.location.column)) = [((4 : Int), (0 : Int))] ∧
    ["T"] = (collectAllTypeMethods "r" "r" f1).map Prod.fst := by decide

/-- C1 (amended): the per-file extraction passes behind
`find-file-interfaces`, `find-file-implementations`,
`analyze-package-interfaces` and `find-interfaces` emit zero-based
start locations — the parser's one-based line and column minus one —
but `find-implementations` copies its locations from the
`collectTypeMethods` store, which keeps the parser's one-based line and
column unchanged (decrementing only the end column). -/
theorem C1_zero_basing :
    (∀ (filePath : String) (parsed : Option GoAst) (e : InterfaceMethod),
      e ∈ findFileInterfaces filePath parsed →
        ∃ f node method, parsed = some f ∧ node ∈ f.types ∧
          method ∈ node.methods ∧
          e.location = ⟨filePath, method.pos.line - 1, method.pos.column - 1⟩) ∧
    (∀ (allInterfaces : List (List String)) (filePath : String)
        (parsed : Option GoAst) (ord : List String) (e : Implementation),
      e ∈ findFileImplementationsGiven allInterfaces filePath parsed ord →
        ∃ f node, parsed = some f ∧ node ∈ f.funcs ∧
          e.location = ⟨filePath, node.pos.line - 1, node.pos.column - 1⟩) ∧
    (∀ (methodName p : String) (f : GoAst) (e : InterfaceMethod),
      e ∈ fileInterfaceMatches methodName p f →
        ∃ node method, node ∈ f.types ∧ method ∈ node.methods ∧
          e.location = ⟨p, method.pos.line - 1, method.pos.column - 1⟩) ∧
    (∀ (p : String) (f : GoAst) (mi : MethodInfo),
      mi ∈ atmValues (collectTypeMethods p f []) →
        ∃ node ∈ f.funcs,
          mi.location = ⟨p, node.pos.line, node.pos.column⟩ ∧
          mi.endLocation = ⟨p, node.endPos.line, node.endPos.column - 1⟩) ∧
    (∀ (allInterfaces : List InterfaceInfo)
        (atm : List (String × List (String × MethodInfo)))
        (methodName : String) (ord : List String) (e : Implementation),
      e ∈ findImplementationsFrom allInterfaces atm methodName ord →
        ∃ mi ∈ atmValues atm, e.location = mi.location ∧
          e.endLocation = mi.endLocation) := by
  refine ⟨?_, ?_, ?_, ?_, ?_⟩
  · intro filePath parsed e h
    obtain ⟨f, node, method, n, rest, hp, hnode, _, hmethod, _, he⟩ :=
      findFileInterfaces_mem h
    exact ⟨f, node, method, hp, hnode, hmethod, congrArg InterfaceMethod.location he⟩
  · intro allInterfaces filePath parsed ord e h
    obtain ⟨f, node, hp, hnode, _, _, he⟩ := findFileImplementationsGiven_mem h
    exact ⟨f, node, hp, hnode, congrArg Implementation.location he⟩
  · intro methodName p f e h
    obtain ⟨node, method, rest, hnode, _, hmethod, _, he⟩ := fileInterfaceMatches_mem h
    exact ⟨node, method, hnode, hmethod, congrArg InterfaceMethod.location he⟩
  · intro p f mi h
    rcases collectTypeMethods_values h with h | ⟨node, hnode, _, he⟩
    · simp [atmValues, lbind] at h
    · exact ⟨node, hnode, congrArg MethodInfo.location he,
        congrArg MethodInfo.endLocation he⟩
  · intro allInterfaces atm methodName ord e h
    exact findImplementationsFrom_locations h

/-- Closed instance of `C1_zero_basing` at the fixture file. -/
theorem C1_zero_basing_witness :
    (∃ f node method, (some astIM : Option GoAst) = some f ∧ node ∈ f.types ∧
      method ∈ node.methods ∧
      ({ name := "M", interfaceName := "I", location := ⟨"r/a.go", 1, 1⟩,
         endLocation := ⟨"r/a.go", 2, 0⟩ } : InterfaceMethod).location =
        ⟨"r/a.go", method.pos.line - 1, method.pos.column - 1⟩) ∧
    (∃ mi ∈ atmValues (collectTypeMethods "r/a.go" astIM []),
      ({ methodName := "M", receiverType := "T", location := ⟨"r/a.go", 5, 1⟩,
         endLocation := ⟨"r/a.go", 7, 1⟩ } : Implementation).location = mi.location ∧
      ({ methodName := "M", receiverType := "T", location := ⟨"r/a.go", 5, 1⟩,
         endLocation := ⟨"r/a.go", 7, 1⟩ } : Implementation).endLocation =
        mi.endLocation) :=
  ⟨C1_zero_basing.1 "r/a.go" (some astIM) _ (by decide),
   C1_zero_basing.2.2.2.2 [{ name := "I", methods := ["M"] }]
     (collectTypeMethods "r/a.go" astIM []) "M" ["T"] _ (by decide)⟩

/-- C9 (counterexample): a declaration whose receiver shape yields the
empty name is *not* unindexed: `func (…unnameable…) Foo` next to
`interface I { Foo }` is indexed under the empty receiver-type name,
matches the interface under the subset policy, and appears in the
`find-file-implementations` result with `receiverType = ""`.  The
second conjunct checks `[""]` is exactly the key list of the
type-method map. -/
theorem C9_counterexample :
    findFileImplementations "r" "r" c9F "r/t.go" (some astOther) [""] =
      [{ methodName := "Foo", receiverType := "",
         location := ⟨"r/t.go", 2, 0⟩, endLocation := ⟨"r/t.go", 3, 1⟩ }] ∧
    [""] = (buildTypeMethods astOther).map Prod.fst := by decide

/-- C9 (amended): `getReceiverType` yields the identifier for a direct
named receiver, `*` + identifier for a pointer-to-named receiver, and
the empty string for every other shape — but an empty-named declaration
is still indexed (under the key `""`) and can appear in query results,
as the final conjunct shows on the fixture directory. -/
theorem C9_receiver_shapes (e : RecvExpr) (rest : List RecvExpr)
    (h1 : ∀ n, e ≠ RecvExpr.ident n)
    (h2 : ∀ n, e ≠ RecvExpr.star (RecvExpr.ident n)) :
    getReceiverType (some (e :: rest)) = "" ∧
    (∀ (n : String) (r2 : List RecvExpr),
      getReceiverType (some (RecvExpr.ident n :: r2)) = n) ∧
    (∀ (n : String) (r2 : List RecvExpr),
      getReceiverType (some (RecvExpr.star (RecvExpr.ident n) :: r2)) = "*" ++ n) ∧
    getReceiverType none = "" ∧
    getReceiverType (some []) = "" ∧
    findFileImplementationsGiven [["Foo"]] "r/t.go" (some astOther) [""] =
      [{ methodName := "Foo", receiverType := "",
         location := ⟨"r/t.go", 2, 0⟩, endLocation := ⟨"r/t.go", 3, 1⟩ }] := by
  refine ⟨?_, fun n r2 => rfl, fun n r2 => rfl, rfl, rfl, by decide⟩
  cases e with
  | ident n => exact absurd rfl (h1 n)
  | star inner =>
    cases inner with
    | ident n => exact absurd rfl (h2 n)
    | star i2 => rfl
    | other => rfl
  | other => rfl

/-- Closed instance of `C9_receiver_shapes` at the `other` shape. -/
theorem C9_receiver_shapes_witness :
    getReceiverType (some [RecvExpr.other]) = "" :=
  (C9_receiver_shapes RecvExpr.other []
    (fun _ h => RecvExpr.noConfusion h)
    (fun _ h => RecvExpr.noConfusion h)).1

/-- Invariant preservation through `walkRoot`. -/
theorem walkRoot_inv {σ : Type} (P : σ → Prop) (a v : Bool)
    (step : σ → String → GoAst → σ)
    (hstep : ∀ s p f, P s → P (step s p f))
    (rootPath rootName : String) (cs : FsForest) (s : σ) (hs : P s) :
    P (walkRoot a v step rootPath rootName cs s).1 := by
  unfold walkRoot
  split
  · exact hs
  · exact walkForest_inv P a v step hstep cs rootPath s hs

/-- C10: interfaces without an explicitly named method are dropped from
the candidate list of `fileImplementations` — every candidate method
list is nonempty — so a type is never reported against such an
interface alone: in the fixture directory whose only interface has just
an embedded entry, the file declaring `func (T) Foo` yields no
implementations at all. -/
theorem C10_empty_interfaces_dropped :
    (∀ (dirPath rootName : String) (children : FsForest) (ms : List String),
      ms ∈ findAllInterfacesInDirectory dirPath rootName children → ms ≠ []) ∧
    findAllInterfacesInDirectory "r" "r" c10F = [] ∧
    findFileImplementations "r" "r" c10F "r/t.go" (some astVT) ["T"] = [] ∧
    astVT.funcs ≠ [] := by
  refine ⟨?_, by decide, by decide, by decide⟩
  intro dirPath rootName children ms hms
  unfold findAllInterfacesInDirectory at hms
  simp only [] at hms
  set P : List (List String) → Prop := fun s => ∀ l ∈ s, l ≠ [] with hP
  have hstep : ∀ (s : List (List String)) p f, P s → P (stepDirIfaces s p f) := by
    intro s p f hs l hl
    rcases List.mem_append.mp hl with hl | hl
    · exact hs l hl
    · exact interfaceMethodLists_ne_nil hl
  have hwalk : P (walkRoot false false stepDirIfaces dirPath rootName children []).1 :=
    walkRoot_inv P false false stepDirIfaces hstep dirPath rootName children []
      (by intro l hl; cases hl)
  have hfall : P (fallbackDirIfaces dirPath children) := by
    refine foldl_pres P _ (globGoFiles dirPath children) ?_ [] (by intro l hl; cases hl)
    intro s fc _hfc hs
    rcases fc with ⟨fp, fast⟩
    by_cases ht : strEnds fp "_test.go"
    · simpa [fallbackDirIfaces, ht] using hs
    · rcases fast with _ | f
      · simpa [ht] using hs
      · simp only [ht, if_false]
        exact hstep s fp f hs
  split at hms
  · exact hfall ms hms
  · exact hwalk ms hms

/-- Closed instance of `C10_empty_interfaces_dropped` on the Scenario B
directory, whose candidate lists are `[["Close"], ["Close", "Flush"]]`. -/
theorem C10_witness :
    (["Close"] : List String) ≠ [] :=
  C10_empty_interfaces_dropped.1 "r" "r" bF ["Close"] (by decide)

/-- A vendor-path or dot-named directory is a unit of the walk when
directory skipping is on. -/
theorem walkTree_skipDir {σ : Type} (a : Bool) (step : σ → String → GoAst → σ)
    (p n : String) (sub : FsForest)
    (h : (strHasSub (p ++ "/" ++ n) "vendor" || strStarts n ".") = true) :
    ∀ s : σ, walkTree a true step p (FsTree.dir n sub) s = (s, false) := by
  intro s
  simp only [walkTree, Bool.true_and, h, if_pos]

/-- A non-`.go`, test, or unreadable/unparsable file is a unit of the
walk in both walk modes. -/
theorem walkTree_skipFile {σ : Type} (a v : Bool) (step : σ → String → GoAst → σ)
    (p n : String) (ast : Option GoAst)
    (h : strEnds (p ++ "/" ++ n) ".go" = false ∨
         strEnds (p ++ "/" ++ n) "_test.go" = true ∨ ast = none) :
    ∀ s : σ, walkTree a v step p (FsTree.file n ast) s = (s, false) := by
  intro s
  rcases h with h | h | h
  · simp only [walkTree, h]
    rfl
  · simp only [walkTree, h]
    split
    · rfl
    · rfl
  · subst h
    simp only [walkTree]
    split
    · rfl
    · split <;> rfl

/-- C5 (counterexample): files under a vendored directory are *not*
excluded from the interface gathering behind
`find-file-implementations`: with the only interface of the tree under
`vendor/`, the query reports `Foo` on `T`; removing the `vendor/`
subtree empties the answer. -/
theorem C5_counterexample :
    findFileImplementations "r" "r" vF "r/t.go" (some astVT) ["T"] =
      [{ methodName := "Foo", receiverType := "T",
         location := ⟨"r/t.go", 1, 0⟩, endLocation := ⟨"r/t.go", 2, 1⟩ }] ∧
    findFileImplementations "r" "r" vFnoVendor "r/t.go" (some astVT) ["T"] = [] ∧
    ["T"] = (buildTypeMethods astVT).map Prod.fst := by decide

/-- C5 (amended): the exclusion rules hold only for the two walk-based
tree queries (`find-interfaces`, `find-implementations`): there,
removing a vendor-path or dot-named directory child, or a test /
non-`.go` / unreadable file child, does not change the walk result.
The walk behind `fileImplementations`' interface gathering skips only
files (test, non-`.go`, unreadable) — a vendor-housed interface does
contribute to it, as the fifth conjunct shows — and the package-summary
glob includes test files, whose interfaces reach the output (last
conjunct). -/
theorem C5_exclusion_scope :
    (∀ (σ : Type) (step : σ → String → GoAst → σ) (p n : String)
        (sub : FsForest) (cs₁ cs₂ : FsForest) (s : σ),
      (strHasSub (p ++ "/" ++ n) "vendor" || strStarts n ".") = true →
      walkForest true true step p
          (appF cs₁ (FsForest.cons (FsTree.dir n sub) cs₂)) s =
        walkForest true true step p (appF cs₁ cs₂) s) ∧
    (∀ (σ : Type) (a v : Bool) (step : σ → String → GoAst → σ) (p n : String)
        (ast : Option GoAst) (cs₁ cs₂ : FsForest) (s : σ),
      (strEnds (p ++ "/" ++ n) ".go" = false ∨
       strEnds (p ++ "/" ++ n) "_test.go" = true ∨ ast = none) →
      walkForest a v step p
          (appF cs₁ (FsForest.cons (FsTree.file n ast) cs₂)) s =
        walkForest a v step p (appF cs₁ cs₂) s) ∧
    findInterfaces "r" "r" vF "Foo" = [] ∧
    findImplementations "r" "r" vF "Foo" ["T"] = [] ∧
    findAllInterfacesInDirectory "r" "r" vF = [["Foo"]] ∧
    alGet (analyzePackageInterfaces "r" "r" tF tTmOrds
        ["I2", "W"] ["T.Ping"]).interfaceImplementations "W" = some ["Ping"] := by
  refine ⟨?_, ?_, by decide, by decide, by decide, by decide⟩
  · intro σ step p n sub cs₁ cs₂ s h
    exact walkForest_skip true true step p (FsTree.dir n sub)
      (walkTree_skipDir true step p n sub h) cs₁ cs₂ s
  · intro σ a v step p n ast cs₁ cs₂ s h
    exact walkForest_skip a v step p (FsTree.file n ast)
      (walkTree_skipFile a v step p n ast h) cs₁ cs₂ s

/-- Closed instance of `C5_exclusion_scope`: dropping the `vendor/`
child from the fixture directory does not change a find-interfaces
walk. -/
theorem C5_exclusion_scope_witness :
    walkForest true true
        (fun s p f => s ++ fileInterfaceMatches "Foo" p f) "r"
        (appF (FsForest.cons (FsTree.file "t.go" (some astVT)) FsForest.nil)
          (FsForest.cons
            (FsTree.dir "vendor"
              (FsForest.cons (FsTree.file "i.go" (some astVI)) FsForest.nil))
            FsForest.nil))
        ([] : List InterfaceMethod) =
      walkForest true true
        (fun s p f => s ++ fileInterfaceMatches "Foo" p f) "r"
        (appF (FsForest.cons (FsTree.file "t.go" (some astVT)) FsForest.nil)
          FsForest.nil)
        ([] : List InterfaceMethod) :=
  C5_exclusion_scope.1 (List InterfaceMethod)
    (fun s p f => s ++ fileInterfaceMatches "Foo" p f) "r" "vendor"
    (FsForest.cons (FsTree.file "i.go" (some astVI)) FsForest.nil)
    (FsForest.cons (FsTree.file "t.go" (some astVT)) FsForest.nil)
    FsForest.nil [] (by decide)

/-- The error-swallowing walk mode never reports an abort. -/
theorem walkRoot_noAbort {σ : Type} (v : Bool) (step : σ → String → GoAst → σ)
    (rootPath rootName : String) (cs : FsForest) (s : σ) :
    (walkRoot false v step rootPath rootName cs s).2 = false := by
  unfold walkRoot
  split
  · rfl
  · exact walkForest_noAbort v step cs rootPath s

/-- C6 (counterexample): on a root whose first entry fails to stat, the
`find-interfaces` walk does not degrade to a flat scan of the root's
immediate files: it aborts, answering `[]`, although the root's
immediate file `b.go` declares `interface I { Foo }` and the claimed
non-recursive fallback scan would report it. -/
theorem C6_counterexample :
    findInterfaces "r" "r" c6F "Foo" = [] ∧
    specFlatFallbackInterfaces "r" c6F "Foo" =
      [{ name := "Foo", interfaceName := "I",
         location := ⟨"r/b.go", 1, 1⟩, endLocation := ⟨"", 0, 0⟩ }] := by decide

/-- C6 (amended): no directory walk fails or surfaces a traversal
error, but only `findAllInterfacesInDirectory` has a flat-scan
fallback, and it is unreachable: its walk swallows entry errors (first
two conjuncts: the walk never aborts, so the function always equals the
plain recursive walk, and an erroneous entry is simply skipped, the
scan continuing recursively).  The walks behind `treeImplementations`
and `treeInterfaces` instead stop at the first erroneous entry and
answer from the entries accumulated so far (third conjunct), as the
concrete fixture shows (last conjuncts). -/
theorem C6_traversal_errors :
    (∀ (dirPath rootName : String) (children : FsForest),
      findAllInterfacesInDirectory dirPath rootName children =
        (walkRoot false false stepDirIfaces dirPath rootName children []).1) ∧
    (∀ (σ : Type) (v : Bool) (step : σ → String → GoAst → σ) (p n : String)
        (cs₁ cs₂ : FsForest) (s : σ),
      walkForest false v step p
          (appF cs₁ (FsForest.cons (FsTree.errEntry n) cs₂)) s =
        walkForest false v step p (appF cs₁ cs₂) s) ∧
    (∀ (σ : Type) (v : Bool) (step : σ → String → GoAst → σ) (p n : String)
        (cs₁ cs₂ : FsForest) (s : σ),
      (walkForest true v step p cs₁ s).2 = false →
      walkForest true v step p
          (appF cs₁ (FsForest.cons (FsTree.errEntry n) cs₂)) s =
        ((walkForest true v step p cs₁ s).1, true)) ∧
    findInterfaces "r" "r" c6F "Foo" = [] ∧
    findAllInterfacesInDirectory "r" "r" c6F = [["Foo"]] := by
  refine ⟨?_, ?_, ?_, by decide, by decide⟩
  · intro dirPath rootName children
    unfold findAllInterfacesInDirectory
    simp only [walkRoot_noAbort]
    rfl
  · intro σ v step p n cs₁ cs₂ s
    exact walkForest_skip false v step p (FsTree.errEntry n)
      (fun s => rfl) cs₁ cs₂ s
  · intro σ v step p n cs₁ cs₂ s h
    exact walkForest_errStop v step p n cs₁ cs₂ s h

/-- Closed instance of `C6_traversal_errors`: on the fixture root the
aborting walk returns the empty prefix accumulated before the error. -/
theorem C6_traversal_errors_witness :
    walkForest true true
        (fun s p f => s ++ fileInterfaceMatches "Foo" p f) "r"
        (appF FsForest.nil
          (FsForest.cons (FsTree.errEntry "a")
            (FsForest.cons (FsTree.file "b.go" (some astVI)) FsForest.nil)))
        ([] : List InterfaceMethod) =
      ((walkForest true true
          (fun s p f => s ++ fileInterfaceMatches "Foo" p f) "r"
          FsForest.nil ([] : List InterfaceMethod)).1, true) :=
  (C6_traversal_errors.2.2.1 (List InterfaceMethod) true
    (fun s p f => s ++ fileInterfaceMatches "Foo" p f) "r" "a"
    FsForest.nil
    (FsForest.cons (FsTree.file "b.go" (some astVI)) FsForest.nil)
    [] (by decide))

theorem firstTargetInterface_none {l : List InterfaceInfo} {m : String}
    (h : ∀ i ∈ l, smem m i.methods = false) :
    firstTargetInterface l m = none := by
  induction l with
  | nil => rfl
  | cons i rest ih =>
    rw [firstTargetInterface, if_neg]
    · exact ih fun j hj => h j (List.mem_cons_of_mem _ hj)
    · simp [h i (List.mem_cons_self _ _)]

theorem firstTargetInterface_some {l : List InterfaceInfo} {m : String}
    {t : InterfaceInfo} (h : firstTargetInterface l m = some t) :
    smem m t.methods = true := by
  induction l with
  | nil => cases h
  | cons i rest ih =>
    rw [firstTargetInterface] at h
    split at h
    · cases h
      assumption
    · exact ih h

theorem alGet_isSome_of_mem_keys {α : Type} {m : List (String × α)} {k : String}
    (h : k ∈ m.map Prod.fst) : alGet m k ≠ none := by
  induction m with
  | nil => simp at h
  | cons p rest ih =>
    obtain ⟨k₀, v₀⟩ := p
    by_cases hk : k₀ = k
    · rw [alGet, if_pos hk]
      simp
    · rw [alGet, if_neg hk]
      refine ih ?_
      simp only [List.map_cons, List.mem_cons] at h
      rcases h with h | h
      · exact absurd h.symm hk
      · exact h

theorem fIFrom_methodName {allInterfaces : List InterfaceInfo}
    {atm : List (String × List (String × MethodInfo))} {m : String}
    {ord : List String} {e : Implementation}
    (h : e ∈ findImplementationsFrom allInterfaces atm m ord) :
    e.methodName = m := by
  unfold findImplementationsFrom at h
  rcases ht : firstTargetInterface allInterfaces m with _ | target
  · rw [ht] at h; cases h
  · rw [ht, mem_lbind] at h
    obtain ⟨ty, _hty, h⟩ := h
    rcases hg : alGet atm ty with _ | methods
    · rw [hg] at h; simp at h
    · rw [hg] at h
      simp only [] at h
      split at h
      · rcases hm : alGet methods m with _ | mi
        · rw [hm] at h; simp at h
        · rw [hm] at h
          simp only [List.mem_singleton] at h
          rw [h]
      · cases h

theorem fIFrom_map_receiver (allInterfaces : List InterfaceInfo)
    (atm : List (String × List (String × MethodInfo))) (m : String)
    (ord : List String) :
    (findImplementationsFrom allInterfaces atm m ord).map
        (fun e => e.receiverType) =
      ord.filter (satisfiesTarget allInterfaces atm m) := by
  unfold findImplementationsFrom satisfiesTarget
  rcases ht : firstTargetInterface allInterfaces m with _ | target
  · simp
  · have hmem : smem m target.methods = true := firstTargetInterface_some ht
    induction ord with
    | nil => rfl
    | cons ty tys ih =>
      simp only [lbind, List.map_append, List.filter_cons, ih]
      rcases hg : alGet atm ty with _ | methods
      · simp
      · simp only []
        by_cases hx : isExactMatch (methods.map Prod.fst) target.methods
        · rcases hm : alGet methods m with _ | mi
          · exfalso
            refine alGet_isSome_of_mem_keys ?_ hm
            have h1 : ∀ x ∈ target.methods, x ∈ methods.map Prod.fst := by
              simpa only [isExactMatch, List.all_eq_true, smem_iff] using hx
            exact h1 m ((smem_iff m target.methods).mp hmem)
          · simp [hx]
        · simp only [Bool.not_eq_true] at hx
          simp [hx]

theorem fIFrom_first_only (allInterfaces : List InterfaceInfo)
    (atm : List (String × List (String × MethodInfo))) (m : String)
    (ord : List String) :
    findImplementationsFrom allInterfaces atm m ord =
      findImplementationsFrom
        ((firstTargetInterface allInterfaces m).toList) atm m ord := by
  rcases ht : firstTargetInterface allInterfaces m with _ | target
  · unfold findImplementationsFrom
    rw [ht]
    rfl
  · have hmem : smem m target.methods = true := firstTargetInterface_some ht
    unfold findImplementationsFrom
    rw [ht]
    have h1 : firstTargetInterface [target] m = some target := by
      rw [firstTargetInterface, if_pos hmem]
    simp only [Option.toList_some, h1]

/-- C3: `treeImplementations` matches types only against the first
interface found under the root whose method list contains the requested
name (conjunct 4: the answer equals the answer computed from that
single candidate); it applies the subset policy of each type's
aggregated method set against that one interface and yields exactly one
entry per satisfying type, in iteration order (conjunct 3), all for the
requested method name only (conjunct 2); and if no interface under the
root declares the name, the answer is empty (conjunct 1). -/
theorem C3_first_interface_subset (rootPath rootName : String)
    (children : FsForest) (methodName : String) (ord : List String) :
    ((∀ iface ∈ findAllInterfacesWithMethods rootPath rootName children,
        methodName ∉ iface.methods) →
      findImplementations rootPath rootName children methodName ord = []) ∧
    (∀ e ∈ findImplementations rootPath rootName children methodName ord,
      e.methodName = methodName) ∧
    ((findImplementations rootPath rootName children methodName ord).map
        (fun e => e.receiverType)) =
      ord.filter
        (satisfiesTarget (findAllInterfacesWithMethods rootPath rootName children)
          (collectAllTypeMethods rootPath rootName children) methodName) ∧
    (∀ atm : List (String × List (String × MethodInfo)),
      findImplementationsFrom
          (findAllInterfacesWithMethods rootPath rootName children)
          atm methodName ord =
        findImplementationsFrom
          ((firstTargetInterface
              (findAllInterfacesWithMethods rootPath rootName children)
              methodName).toList)
          atm methodName ord) := by
  refine ⟨?_, ?_, ?_, ?_⟩
  · intro h
    unfold findImplementations findImplementationsFrom
    rw [firstTargetInterface_none]
    intro i hi
    have := h i hi
    rcases hb : smem methodName i.methods with _ | _
    · rfl
    · exact absurd ((smem_iff _ _).mp hb) this
  · intro e he
    exact fIFrom_methodName he
  · exact fIFrom_map_receiver _ _ _ _
  · intro atm
    exact fIFrom_first_only _ atm _ _

/-- Closed instance of `C3_first_interface_subset`: `f1` declares no
interface with a method `ZZ`, so `find-implementations` answers `[]`;
for `M` the receiver list equals the satisfying-type filter. -/
theorem C3_witness :
    findImplementations "r" "r" f1 "ZZ" ["T"] = [] ∧
    ((findImplementations "r" "r" f1 "M" ["T"]).map fun e => e.receiverType) =
      ["T"].filter
        (satisfiesTarget (findAllInterfacesWithMethods "r" "r" f1)
          (collectAllTypeMethods "r" "r" f1) "M") :=
  ⟨(C3_first_interface_subset "r" "r" f1 "ZZ" ["T"]).1 (by decide),
   (C3_first_interface_subset "r" "r" f1 "M" ["T"]).2.2.1⟩

theorem foldl_back {α β : Type} (Q : α → Prop) (R : β → Prop) (f : α → β → α)
    (l : List β) (hb : ∀ acc y, y ∈ l → Q (f acc y) → Q acc ∨ R y) :
    ∀ a, Q (l.foldl f a) → Q a ∨ ∃ y ∈ l, R y := by
  induction l with
  | nil => intro a h; exact Or.inl h
  | cons b bs ih =>
    intro a h
    rcases ih (fun acc y hy => hb acc y (List.mem_cons_of_mem _ hy)) (f a b) h with
      h | ⟨y, hy, hr⟩
    · rcases hb a b (List.mem_cons_self _ _) h with h | hr
      · exact Or.inl h
      · exact Or.inr ⟨b, List.mem_cons_self _ _, hr⟩
    · exact Or.inr ⟨y, List.mem_cons_of_mem _ hy, hr⟩

theorem mtiPres_alSet {mm : List (String × String)} {k k' v : String}
    (h : alGet mm k ≠ none) : alGet (alSet mm k' v) k ≠ none := by
  rw [alGet_alSet]
  split
  · simp
  · exact h

theorem apStepImpl_pres {interfaceName : String} {method : InterfaceMethod}
    {acc : PackageAnalysisResult} {impl : Implementation} {k : String}
    (h : alGet acc.methodToInterface k ≠ none) :
    alGet (apStepImpl interfaceName method acc impl).methodToInterface k ≠ none := by
  unfold apStepImpl
  split
  · exact mtiPres_alSet h
  · exact h

theorem apStepKey_pres {implementations : List (String × List Implementation)}
    {interfaceName : String} {method : InterfaceMethod}
    {acc : PackageAnalysisResult} {implKey k : String}
    (h : alGet acc.methodToInterface k ≠ none) :
    alGet (apStepKey implementations interfaceName method acc implKey).methodToInterface
      k ≠ none := by
  unfold apStepKey
  split
  · exact h
  · exact foldl_pres (fun r => alGet r.methodToInterface k ≠ none) _ _
      (fun r impl _ hr => apStepImpl_pres hr) acc h

theorem apStepMethod_pres {implementations : List (String × List Implementation)}
    {o2 : List String} {interfaceName : String} {acc : PackageAnalysisResult}
    {method : InterfaceMethod} {k : String}
    (h : alGet acc.methodToInterface k ≠ none) :
    alGet (apStepMethod implementations o2 interfaceName acc method).methodToInterface
      k ≠ none :=
  foldl_pres (fun r => alGet r.methodToInterface k ≠ none) _ o2
    (fun r key _ hr => apStepKey_pres hr) acc h

theorem apStepIface_pres {interfaces : List (String × List InterfaceMethod)}
    {implementations : List (String × List Implementation)} {o2 : List String}
    {acc : PackageAnalysisResult} {interfaceName k : String}
    (h : alGet acc.methodToInterface k ≠ none) :
    alGet (apStepIface interfaces implementations o2 acc
      interfaceName).methodToInterface k ≠ none := by
  unfold apStepIface
  split
  · exact h
  · exact foldl_pres (fun r => alGet r.methodToInterface k ≠ none) _ _
      (fun r method _ hr => apStepMethod_pres hr) acc h

theorem apMatch_mti_mem {interfaces : List (String × List InterfaceMethod)}
    {implementations : List (String × List Implementation)}
    {o1 o2 : List String} {m ifaceName key : String}
    {ms : List InterfaceMethod} {im : InterfaceMethod}
    {impls : List Implementation} {impl : Implementation}
    (ho1 : ifaceName ∈ o1) (ho2 : key ∈ o2)
    (h1 : alGet interfaces ifaceName = some ms) (h2 : im ∈ ms)
    (h3 : im.name = m)
    (h4 : alGet implementations key = some impls) (h5 : impl ∈ impls)
    (h6 : impl.methodName = m) :
    alGet (apMatch interfaces implementations o1 o2).methodToInterface m ≠ none := by
  unfold apMatch
  refine foldl_establish (fun r : PackageAnalysisResult => alGet r.methodToInterface m ≠ none) _ o1
    ifaceName ho1 ?_ (fun r y _ hr => apStepIface_pres hr) _
  intro acc
  unfold apStepIface
  rw [h1]
  refine foldl_establish (fun r : PackageAnalysisResult => alGet r.methodToInterface m ≠ none) _ ms
    im h2 ?_ (fun r y _ hr => apStepMethod_pres hr) acc
  intro acc2
  unfold apStepMethod
  refine foldl_establish (fun r : PackageAnalysisResult => alGet r.methodToInterface m ≠ none) _ o2
    key ho2 ?_ (fun r y _ hr => apStepKey_pres hr) acc2
  intro acc3
  unfold apStepKey
  rw [h4]
  refine foldl_establish (fun r : PackageAnalysisResult => alGet r.methodToInterface m ≠ none) _ impls
    impl h5 ?_ (fun r y _ hr => apStepImpl_pres hr) acc3
  intro acc4
  unfold apStepImpl
  rw [h6, h3, if_pos rfl]
  show alGet (alSet acc4.methodToInterface m ifaceName) m ≠ none
  rw [alGet_alSet, if_pos rfl]
  simp

theorem apStepImpl_back {interfaceName : String} {method : InterfaceMethod}
    {acc : PackageAnalysisResult} {impl : Implementation} {k : String}
    (h : alGet (apStepImpl interfaceName method acc impl).methodToInterface k ≠ none) :
    alGet acc.methodToInterface k ≠ none ∨
      (impl.methodName = method.name ∧ impl.methodName = k) := by
  unfold apStepImpl at h
  split at h
  · rename_i hcond
    by_cases hk : impl.methodName = k
    · exact Or.inr ⟨hcond, hk⟩
    · have h3 : alGet (alSet acc.methodToInterface impl.methodName interfaceName)
          k ≠ none := h
      rw [alGet_alSet, if_neg hk] at h3
      exact Or.inl h3
  · exact Or.inl h

theorem apStepKey_back {implementations : List (String × List Implementation)}
    {interfaceName : String} {method : InterfaceMethod}
    {acc : PackageAnalysisResult} {implKey k : String}
    (h : alGet (apStepKey implementations interfaceName method acc
      implKey).methodToInterface k ≠ none) :
    alGet acc.methodToInterface k ≠ none ∨
      ∃ impls impl, alGet implementations implKey = some impls ∧ impl ∈ impls ∧
        impl.methodName = method.name ∧ impl.methodName = k := by
  unfold apStepKey at h
  split at h
  · exact Or.inl h
  · rename_i impls hg
    rcases foldl_back (fun r : PackageAnalysisResult => alGet r.methodToInterface k ≠ none)
      (fun impl => impl.methodName = method.name ∧ impl.methodName = k)
      _ impls (fun acc2 impl _ h2 => apStepImpl_back h2) acc h with h | ⟨impl, hi, hr⟩
    · exact Or.inl h
    · exact Or.inr ⟨impls, impl, hg, hi, hr.1, hr.2⟩

theorem apStepMethod_back {implementations : List (String × List Implementation)}
    {o2 : List String} {interfaceName : String} {acc : PackageAnalysisResult}
    {method : InterfaceMethod} {k : String}
    (h : alGet (apStepMethod implementations o2 interfaceName acc
      method).methodToInterface k ≠ none) :
    alGet acc.methodToInterface k ≠ none ∨
      ∃ implKey impls impl, alGet implementations implKey = some impls ∧
        impl ∈ impls ∧ impl.methodName = method.name ∧ impl.methodName = k := by
  unfold apStepMethod at h
  rcases foldl_back (fun r : PackageAnalysisResult => alGet r.methodToInterface k ≠ none)
    (fun implKey => ∃ impls impl, alGet implementations implKey = some impls ∧
      impl ∈ impls ∧ impl.methodName = method.name ∧ impl.methodName = k)
    _ o2 (fun acc2 key2 _ h2 => apStepKey_back h2) acc h with h | ⟨key2, _hk2, hr⟩
  · exact Or.inl h
  · obtain ⟨impls, impl, hg, hi, he1, he2⟩ := hr
    exact Or.inr ⟨key2, impls, impl, hg, hi, he1, he2⟩

theorem apStepIface_back {interfaces : List (String × List InterfaceMethod)}
    {implementations : List (String × List Implementation)} {o2 : List String}
    {acc : PackageAnalysisResult} {interfaceName k : String}
    (h : alGet (apStepIface interfaces implementations o2 acc
      interfaceName).methodToInterface k ≠ none) :
    alGet acc.methodToInterface k ≠ none ∨
      ∃ ms im implKey impls impl, alGet interfaces interfaceName = some ms ∧
        im ∈ ms ∧ alGet implementations implKey = some impls ∧ impl ∈ impls ∧
        impl.methodName = im.name ∧ impl.methodName = k := by
  unfold apStepIface at h
  split at h
  · exact Or.inl h
  · rename_i ms hg
    rcases foldl_back (fun r : PackageAnalysisResult => alGet r.methodToInterface k ≠ none)
      (fun im => ∃ implKey impls impl, alGet implementations implKey = some impls ∧
        impl ∈ impls ∧ impl.methodName = im.name ∧ impl.methodName = k)
      _ ms (fun acc2 im _ h2 => apStepMethod_back h2) acc h with h | ⟨im, him, hr⟩
    · exact Or.inl h
    · obtain ⟨implKey, impls, impl, hgi, hi, he1, he2⟩ := hr
      exact Or.inr ⟨ms, im, implKey, impls, impl, hg, him, hgi, hi, he1, he2⟩

theorem apMatch_mti_iff {interfaces : List (String × List InterfaceMethod)}
    {implementations : List (String × List Implementation)}
    {o1 o2 : List String} {k : String}
    (ho1 : validOrd interfaces o1) (ho2 : validOrd implementations o2) :
    (alGet (apMatch interfaces implementations o1 o2).methodToInterface k ≠ none) ↔
      ∃ ifaceName ms im implKey impls impl,
        alGet interfaces ifaceName = some ms ∧ im ∈ ms ∧
        alGet implementations implKey = some impls ∧ impl ∈ impls ∧
        impl.methodName = im.name ∧ impl.methodName = k := by
  constructor
  · intro h
    unfold apMatch at h
    rcases foldl_back (fun r : PackageAnalysisResult => alGet r.methodToInterface k ≠ none)
      (fun ifaceName => ∃ ms im implKey impls impl,
        alGet interfaces ifaceName = some ms ∧ im ∈ ms ∧
        alGet implementations implKey = some impls ∧ impl ∈ impls ∧
        impl.methodName = im.name ∧ impl.methodName = k)
      _ o1 (fun acc iname _ h2 => apStepIface_back h2) _ h with h | ⟨iname, _hin, hr⟩
    · exact absurd rfl h
    · obtain ⟨ms, im, implKey, impls, impl, hg, him, hgi, hi, he1, he2⟩ := hr
      exact ⟨iname, ms, im, implKey, impls, impl, hg, him, hgi, hi, he1, he2⟩
  · rintro ⟨iname, ms, im, implKey, impls, impl, hg, him, hgi, hi, he1, he2⟩
    refine apMatch_mti_mem ?_ ?_ hg him ?_ hgi hi he2
    · exact ((List.isPerm_iff.mp ho1).mem_iff).mpr (alGet_some_mem hg)
    · exact ((List.isPerm_iff.mp ho2).mem_iff).mpr (alGet_some_mem hgi)
    · rw [← he1, he2]

/-- C2: in `analyze-package-interfaces`, a method name `m` is recorded in
`methodToInterface` whenever some interface of the directory declares a
method named `m` and some indexed implementation bears that name — no
check that the implementation's owning type satisfies that particular
interface is involved.  The last two conjuncts are the Scenario B
configuration (interfaces `A` and `B` in different files both declaring
`Close`, `T` implementing only `A`'s full method set): `Close` is
recorded whichever way the interfaces map happens to be iterated. -/
theorem C2_any_name_overlap
    (dirPath rootName : String) (children : FsForest)
    (tmOrds : String → List String) (o1 o2 : List String)
    (m ifaceName implKey : String) (ms : List InterfaceMethod)
    (im : InterfaceMethod) (impls : List Implementation) (impl : Implementation)
    (ho1 : validOrd (apCollect dirPath rootName children tmOrds).1 o1)
    (ho2 : validOrd (apCollect dirPath rootName children tmOrds).2 o2)
    (h1 : alGet (apCollect dirPath rootName children tmOrds).1 ifaceName = some ms)
    (h2 : im ∈ ms) (h3 : im.name = m)
    (h4 : alGet (apCollect dirPath rootName children tmOrds).2 implKey = some impls)
    (h5 : impl ∈ impls) (h6 : impl.methodName = m) :
    alGet (analyzePackageInterfaces dirPath rootName children tmOrds o1
        o2).methodToInterface m ≠ none ∧
    alGet (analyzePackageInterfaces "r" "r" bF bTmOrds ["A", "B"]
        ["T.Close"]).methodToInterface "Close" ≠ none ∧
    alGet (analyzePackageInterfaces "r" "r" bF bTmOrds ["B", "A"]
        ["T.Close"]).methodToInterface "Close" ≠ none := by
  refine ⟨?_, by decide, by decide⟩
  unfold analyzePackageInterfaces
  exact apMatch_mti_mem
    (((List.isPerm_iff.mp ho1).mem_iff).mpr (alGet_some_mem h1))
    (((List.isPerm_iff.mp ho2).mem_iff).mpr (alGet_some_mem h4))
    h1 h2 h3 h4 h5 h6

/-- Closed instance of `C2_any_name_overlap` on the Scenario B
directory. -/
theorem C2_witness :
    alGet (analyzePackageInterfaces "r" "r" bF bTmOrds ["A", "B"]
        ["T.Close"]).methodToInterface "Close" ≠ none :=
  (C2_any_name_overlap "r" "r" bF bTmOrds ["A", "B"] ["T.Close"]
    "Close" "A" "T.Close"
    [{ name := "Close", interfaceName := "A",
       location := ⟨"r/a.go", 1, 1⟩, endLocation := ⟨"r/a.go", 2, 0⟩ }]
    { name := "Close", interfaceName := "A",
      location := ⟨"r/a.go", 1, 1⟩, endLocation := ⟨"r/a.go", 2, 0⟩ }
    [{ methodName := "Close", receiverType := "T",
       location := ⟨"r/t.go", 1, 0⟩, endLocation := ⟨"r/t.go", 2, 1⟩ }]
    { methodName := "Close", receiverType := "T",
      location := ⟨"r/t.go", 1, 0⟩, endLocation := ⟨"r/t.go", 2, 1⟩ }
    (by decide) (by decide) (by decide) (by decide) (by decide)
    (by decide) (by decide) (by decide)).1

/-- C7 (counterexample): `analyze-package-interfaces` output is not
run-independent: both `["A", "B"]` and `["B", "A"]` are legitimate
iteration orders of the interfaces map of the Scenario B directory (Go
leaves map order unspecified and varies it between runs), yet
`methodToInterface["Close"]` is `"B"` under one and `"A"` under the
other, so two runs over the unchanged tree can emit different JSON
bytes. -/
theorem C7_counterexample :
    alGet (analyzePackageInterfaces "r" "r" bF bTmOrds ["A", "B"]
        ["T.Close"]).methodToInterface "Close" = some "B" ∧
    alGet (analyzePackageInterfaces "r" "r" bF bTmOrds ["B", "A"]
        ["T.Close"]).methodToInterface "Close" = some "A" ∧
    validOrd (apCollect "r" "r" bF bTmOrds).1 ["A", "B"] ∧
    validOrd (apCollect "r" "r" bF bTmOrds).1 ["B", "A"] ∧
    validOrd (apCollect "r" "r" bF bTmOrds).2 ["T.Close"] ∧
    ¬ ((some "B" : Option String) = some "A") := by decide

/-- C7 (amended): the model of every query is a function of the file
tree and the map-iteration orders alone (there is no other hidden
state), and for `analyze-package-interfaces` the *key set* of
`methodToInterface` does not depend on the iteration orders: membership
of any method name is the same under any two valid order choices.  (The
associated values, and the order of the `interfaceImplementations`
lists, do vary — `C7_counterexample`.) -/
theorem C7_order_invariance
    (dirPath rootName : String) (children : FsForest)
    (tmOrds : String → List String) (o1 o2 o10 o20 : List String) (k : String)
    (ho1 : validOrd (apCollect dirPath rootName children tmOrds).1 o1)
    (ho2 : validOrd (apCollect dirPath rootName children tmOrds).2 o2)
    (ho10 : validOrd (apCollect dirPath rootName children tmOrds).1 o10)
    (ho20 : validOrd (apCollect dirPath rootName children tmOrds).2 o20) :
    (alGet (analyzePackageInterfaces dirPath rootName children tmOrds o1
        o2).methodToInterface k ≠ none ↔
      alGet (analyzePackageInterfaces dirPath rootName children tmOrds o10
        o20).methodToInterface k ≠ none) := by
  unfold analyzePackageInterfaces
  exact (apMatch_mti_iff ho1 ho2).trans (apMatch_mti_iff ho10 ho20).symm

/-- Closed instance of `C7_order_invariance` on the Scenario B
directory and its two interface-map orders. -/
theorem C7_order_invariance_witness :
    (alGet (analyzePackageInterfaces "r" "r" bF bTmOrds ["A", "B"]
        ["T.Close"]).methodToInterface "Close" ≠ none ↔
      alGet (analyzePackageInterfaces "r" "r" bF bTmOrds ["B", "A"]
        ["T.Close"]).methodToInterface "Close" ≠ none) :=
  C7_order_invariance "r" "r" bF bTmOrds ["A", "B"] ["T.Close"]
    ["B", "A"] ["T.Close"] "Close"
    (by decide) (by decide) (by decide) (by decide)

/-- Closed instance of `C4_subset_policy`: `{Close, Extra}` satisfies
`{Close}` although `Extra` is not an interface method. -/
theorem C4_witness :
    isExactMatch ["Close", "Extra"] ["Close"] = true ∧
    isExactMatch ["Close", "Extra"] [] = true :=
  ⟨((C4_subset_policy ["Close", "Extra"] ["Close"]).1).mpr (by decide),
   (C4_subset_policy ["Close", "Extra"] []).2⟩
